import Mathlib

/-!
Shallow embedding of the TurboRacers race engine (`race-engine-starter.js`)
together with the BigInt percentage helper it uses for price updates.

Conventions of the embedding:
* JS numbers (stats, distances, random draws, probabilities) are modelled as
  exact rationals `ℚ`; `Math.random()` draws are threaded through as an
  explicit stream `draws : ℕ → ℚ` consumed left to right with a counter,
  one element per `Math.random()` call in source order.
* JS `BigInt` price arithmetic is modelled on `Int`; `BigInt` division
  truncates toward zero, hence `Int.tdiv`.
* The `while (!raceFinished)` loop is modelled with explicit fuel; `none`
  means the loop was still running when the fuel ran out.
* Remote `update-price` calls sit behind a success oracle
  `oracle : ℕ → Bool`; the source catches every write failure and only logs
  it, so the oracle only decorates the write log and never touches state.
-/

namespace TurboRace

/-- Configuration constant `RACE_DISTANCE` (distance to finish), default 5000. -/
def RACE_DISTANCE : ℚ := 5000

/-- Configuration constant `BASE_DRIFT` (random speed noise magnitude), default 5. -/
def BASE_DRIFT : ℚ := 5

/-- Price rule constant `OVERTAKE_BONUS_PCT = 10` (+10% on overtake). -/
def OVERTAKE_BONUS_PCT : Int := 10

/-- Price rule constant `CRASH_PENALTY_PCT = 20` (-20% on crash). -/
def CRASH_PENALTY_PCT : Int := 20

/-- Price rule constant `WINNER_BONUS_PCT = 5` (+5% at finish). -/
def WINNER_BONUS_PCT : Int := 5

/-- Source function `applyPercentBigInt(weiStr, pct, increase)`: the wei value
is a `BigInt`, `change = (val * BigInt(pct)) / 100n` with `BigInt` division
(truncation toward zero, hence `Int.tdiv`), and the result is `val + change`
or `val - change` according to `increase`. -/
def applyPercentBigInt (weiVal : Int) (pct : Int) (increase : Bool) : Int :=
  let change := Int.tdiv (weiVal * pct) 100
  if increase then weiVal + change else weiVal - change

/-- The argument record passed to `racerSpeedTick` in the source
(`{ speed, aggression, consistency }`). -/
structure SpeedInput where
  speed : ℚ
  aggression : ℚ
  consistency : ℚ
deriving DecidableEq

/-- Source function `racerSpeedTick(racer)`, with the two `Math.random()`
draws it consumes made explicit (`uNoise` for the noise term, then `uBurst`
for the aggression burst, in source order).  Note the source reads
`(racer.consistency || 100)`: a consistency of `0` is falsy in JS, so the
default `100` is substituted for it. -/
def racerSpeedTick (racer : SpeedInput) (uNoise uBurst : ℚ) : ℚ :=
  let consistencyFactor := (if racer.consistency = 0 then 100 else racer.consistency) / 200
  let noise := uNoise * BASE_DRIFT * (1 - consistencyFactor)
    - BASE_DRIFT / 2 * (1 - consistencyFactor)
  let aggressionBurst := if uBurst < racer.aggression / 500 then racer.aggression / 20 else 0
  max 0 (racer.speed + aggressionBurst + noise)

/-- Modelled from the spec wording of §4.1 (not from the source): the same
speed-sample formula but with `consistencyFactor = consistency / 200`
unconditionally, as the specification states it for all stat values in
`[0,255]` including `consistency = 0`.  Used only to compare the spec's
formula against `racerSpeedTick`. -/
def specSpeedSample (speed aggression consistency uNoise uBurst : ℚ) : ℚ :=
  let consistencyFactor := consistency / 200
  let noise := uNoise * BASE_DRIFT * (1 - consistencyFactor)
    - BASE_DRIFT / 2 * (1 - consistencyFactor)
  let aggressionBurst := if uBurst < aggression / 500 then aggression / 20 else 0
  max 0 (speed + aggressionBurst + noise)

/-- One element of the race engine's `state` array: the dynamic record built
from a fetched racer (`id`, `name`, the three stats, `distance`, `finished`,
`currentPriceWei`). -/
structure Participant where
  id : ℕ
  name : String
  speedStat : ℚ
  aggression : ℚ
  consistency : ℚ
  distance : ℚ
  finished : Bool
  currentPriceWei : Int
deriving DecidableEq

/-- The race engine's mutable state: the participant array plus the
`state._lastOrder` field that is attached to it after the first tick's sort
(`none` before tick 1 has sorted). -/
structure RaceState where
  participants : List Participant
  lastOrder : Option (List ℕ)
deriving DecidableEq

/-- Events the engine reacts to with a price write. -/
inductive RaceEvent
  | overtake (id oldRank newRank : ℕ)
  | crash (id : ℕ)
  | finish (id : ℕ)
deriving DecidableEq

/-- JS `Array.prototype.indexOf` on an id array: index of the first
occurrence, or `-1` when the id is absent. -/
def jsIndexOf : List ℕ → ℕ → Int
  | [], _ => -1
  | a :: rest, x =>
    if a = x then 0
    else
      let r := jsIndexOf rest x
      if r = -1 then -1 else r + 1

/-- Mutating the object returned by `state.find(...)`: replace the first
participant satisfying `p` by its image under `f`, leave the rest alone. -/
def updateFirst (p : Participant → Bool) (f : Participant → Participant) :
    List Participant → List Participant
  | [] => []
  | r :: rest => if p r then f r :: rest else r :: updateFirst p f rest

/-- The per-tick distance pass: every participant with `finished` set is
skipped (consuming no randomness); every other participant consumes the next
two draws and gains `racerSpeedTick` of distance.  Returns the updated array
and the advanced draw counter. -/
def advancePass (draws : ℕ → ℚ) : List Participant → ℕ → List Participant × ℕ
  | [], k => ([], k)
  | r :: rest, k =>
    if r.finished then
      let out := advancePass draws rest k
      (r :: out.1, out.2)
    else
      let s := racerSpeedTick ⟨r.speedStat, r.aggression, r.consistency⟩ (draws k) (draws (k+1))
      let out := advancePass draws rest (k+2)
      ({ r with distance := r.distance + s } :: out.1, out.2)

/-- The per-tick sort `state.sort((a,b) => Number(b.distance - a.distance))`:
a stable sort, descending by distance. -/
def sortByDistanceDesc (l : List Participant) : List Participant :=
  l.mergeSort (fun a b => b.distance ≤ a.distance)

/-- The overtake detection loop: walk `curOrder` with its index `i`; when the
previous index of the id is strictly greater than `i`, bump the participant's
price by `OVERTAKE_BONUS_PCT` (found via `state.find`, i.e. first match),
emit the event with ranks `prevIndex+1` and `i+1`, and record the write.
The `none` branch of the lookup is unreachable in the engine because
`curOrder` is exactly the id column of the state being walked. -/
def overtakePass (prevOrder : List ℕ) :
    List ℕ → ℕ → List Participant →
      List Participant × List RaceEvent × List (ℕ × Int)
  | [], _, st => (st, [], [])
  | id :: rest, i, st =>
    let p := jsIndexOf prevOrder id
    if p > (i : Int) then
      match st.find? (fun x => x.id = id) with
      | some racer =>
        let nw := applyPercentBigInt racer.currentPriceWei OVERTAKE_BONUS_PCT true
        let st2 := updateFirst (fun x => x.id = id)
          (fun r => { r with currentPriceWei := nw }) st
        let out := overtakePass prevOrder rest (i+1) st2
        (out.1, RaceEvent.overtake id (p.toNat + 1) (i + 1) :: out.2.1, (id, nw) :: out.2.2)
      | none => overtakePass prevOrder rest (i+1) st
    else
      overtakePass prevOrder rest (i+1) st

/-- Per-tick crash probability:
`0.002 + 0.01 * aggFactor + 0.01 * consFactor * aggFactor` with
`aggFactor = aggression/255` and `consFactor = 1 - consistency/255`. -/
def crashProb (aggression consistency : ℚ) : ℚ :=
  let aggFactor := aggression / 255
  let consFactor := 1 - consistency / 255
  2 / 1000 + 1 / 100 * aggFactor + 1 / 100 * consFactor * aggFactor

/-- The per-tick crash pass: finished participants are skipped (no draw
consumed); every other participant consumes one draw, and on
`draw < crashProb` loses `2 * speedStat` distance (clamped at 0) and
`CRASH_PENALTY_PCT` percent of price, with the write recorded. -/
def crashPass (draws : ℕ → ℚ) : List Participant → ℕ →
    List Participant × ℕ × List RaceEvent × List (ℕ × Int)
  | [], k => ([], k, [], [])
  | r :: rest, k =>
    if r.finished then
      let out := crashPass draws rest k
      (r :: out.1, out.2)
    else if draws k < crashProb r.aggression r.consistency then
      let r2 : Participant := { r with
        distance := max 0 (r.distance - r.speedStat * 2),
        currentPriceWei := applyPercentBigInt r.currentPriceWei CRASH_PENALTY_PCT false }
      let out := crashPass draws rest (k+1)
      (r2 :: out.1, out.2.1, RaceEvent.crash r.id :: out.2.2.1,
        (r.id, r2.currentPriceWei) :: out.2.2.2)
    else
      let out := crashPass draws rest (k+1)
      (r :: out.1, out.2)

/-- The per-tick finish pass: every participant that is not yet finished and
has reached `RACE_DISTANCE` is marked finished and gains `WINNER_BONUS_PCT`
percent of price, with the write recorded; everyone else is untouched. -/
def finishPass : List Participant →
    List Participant × List RaceEvent × List (ℕ × Int)
  | [] => ([], [], [])
  | r :: rest =>
    if !r.finished && decide (RACE_DISTANCE ≤ r.distance) then
      let nw := applyPercentBigInt r.currentPriceWei WINNER_BONUS_PCT true
      let r2 : Participant := { r with finished := true, currentPriceWei := nw }
      let out := finishPass rest
      (r2 :: out.1, RaceEvent.finish r.id :: out.2.1, (r.id, nw) :: out.2.2)
    else
      let out := finishPass rest
      (r :: out.1, out.2)

/-- Result of one body of the `while (!raceFinished)` loop. -/
structure TickOutput where
  state : RaceState
  nextDraw : ℕ
  events : List RaceEvent
  writes : List (ℕ × Int)
deriving DecidableEq

/-- The participant array as it stands when the crash pass starts: distances
advanced, sorted descending, and (when `lastOrder` is present) with the
overtake price bumps of this tick applied. -/
def midTickState (draws : ℕ → ℚ) (st : RaceState) (k : ℕ) : List Participant :=
  let sorted := sortByDistanceDesc (advancePass draws st.participants k).1
  match st.lastOrder with
  | none => sorted
  | some prevOrder => (overtakePass prevOrder (sorted.map (·.id)) 0 sorted).1

/-- One full tick of the race loop, in source order: advance all unfinished
distances, sort descending by distance, detect overtakes against
`state._lastOrder` (initialising it instead on the first tick), run the
crash pass, then the finish pass; `_lastOrder` is set to the id column of
this tick's sort. -/
def raceTick (draws : ℕ → ℚ) (st : RaceState) (k : ℕ) : TickOutput :=
  let adv := advancePass draws st.participants k
  let sorted := sortByDistanceDesc adv.1
  let curOrder := sorted.map (·.id)
  match st.lastOrder with
  | none =>
    let c := crashPass draws sorted adv.2
    let f := finishPass c.1
    ⟨⟨f.1, some curOrder⟩, c.2.1, c.2.2.1 ++ f.2.1, c.2.2.2 ++ f.2.2⟩
  | some prevOrder =>
    let o := overtakePass prevOrder curOrder 0 sorted
    let c := crashPass draws o.1 adv.2
    let f := finishPass c.1
    ⟨⟨f.1, some curOrder⟩, c.2.1, o.2.1 ++ c.2.2.1 ++ f.2.1, o.2.2 ++ c.2.2.2 ++ f.2.2⟩

/-- The loop guard: `state.every(s => s.finished)`. -/
def allFinished (l : List Participant) : Bool := l.all (·.finished)

/-- The `while (!raceFinished)` loop with explicit fuel: run a tick, stop
successfully when every participant is finished, otherwise continue with the
remaining fuel.  Returns the final state together with the concatenated
event and write logs, or `none` when the fuel is exhausted before the race
completes. -/
def runRaceLoop (draws : ℕ → ℚ) :
    ℕ → RaceState → ℕ → Option (RaceState × List RaceEvent × List (ℕ × Int))
  | 0, _, _ => none
  | fuel+1, st, k =>
    let out := raceTick draws st k
    if allFinished out.state.participants then
      some (out.state, out.events, out.writes)
    else
      match runRaceLoop draws fuel out.state out.nextDraw with
      | none => none
      | some res => some (res.1, out.events ++ res.2.1, out.writes ++ res.2.2)

/-- Iterate whole ticks (state and draw counter) a given number of times. -/
def tickIter (draws : ℕ → ℚ) : ℕ → RaceState × ℕ → RaceState × ℕ
  | 0, p => p
  | n+1, p =>
    let out := raceTick draws p.1 p.2
    tickIter draws n (out.state, out.nextDraw)

/-- A racer row as fetched from `GET /racers`. -/
structure RacerInfo where
  id : ℕ
  name : String
  speed : ℚ
  aggression : ℚ
  consistency : ℚ
  currentPrice : Int
deriving DecidableEq

/-- The initial race state the engine builds from the fetched roster:
distance 0, not finished, local price seeded from the registry price, and no
`_lastOrder` yet. -/
def initState (racers : List RacerInfo) : RaceState :=
  ⟨racers.map (fun r =>
      ⟨r.id, r.name, r.speed, r.aggression, r.consistency, 0, false, r.currentPrice⟩),
    none⟩

/-- Lookup `state.find(x => x.id === id)`: the first participant with the given id. -/
def participantOf (l : List Participant) (x : ℕ) : Option Participant :=
  l.find? (fun r => r.id = x)

/-- The `currentPriceWei` of the first participant with the given id. -/
def priceOf (l : List Participant) (x : ℕ) : Option Int :=
  (participantOf l x).map (·.currentPriceWei)

/-- Modelled from the spec wording of §4.2 (not from the source): the list of
Overtake events the spec prescribes for a tick — one event `(oldRank = p+1,
newRank = i+1)` for each id at new index `i` whose previous index `p` is
strictly greater than `i` — used to state that the engine emits exactly
these. -/
def expectedOvertakeEvents (prevOrder : List ℕ) : List ℕ → ℕ → List RaceEvent
  | [], _ => []
  | id :: rest, i =>
    let p := jsIndexOf prevOrder id
    if p > (i : Int) then
      RaceEvent.overtake id (p.toNat + 1) (i + 1) :: expectedOvertakeEvents prevOrder rest (i+1)
    else
      expectedOvertakeEvents prevOrder rest (i+1)

/-- The race loop with the transport oracle attached: each recorded write is
paired with the success bit of the corresponding `POST /update-price` call.
The source wraps every such call in `try { ... } catch (e) { console.error }`,
so a failure only changes the log, never the race state. -/
def runRaceTransport (draws : ℕ → ℚ) (oracle : ℕ → Bool) (fuel : ℕ) (st : RaceState) :
    Option (RaceState × List (ℕ × Int × Bool)) :=
  match runRaceLoop draws fuel st 0 with
  | none => none
  | some res =>
    some (res.1, res.2.2.mapIdx (fun i w => (w.1, w.2, oracle i)))

/-! ### Arithmetic facts about the percentage helper -/

theorem tdiv_hundred_eq_ediv (a : Int) (ha : 0 ≤ a) : Int.tdiv a 100 = a / 100 :=
  Int.tdiv_eq_ediv ha (by norm_num)

theorem applyPercent_increase_eq (p pct : Int) (hp : 0 ≤ p) (hpct : 0 ≤ pct) :
    applyPercentBigInt p pct true = p + p * pct / 100 := by
  unfold applyPercentBigInt
  rw [tdiv_hundred_eq_ediv _ (mul_nonneg hp hpct)]
  simp

theorem applyPercent_decrease_eq (p pct : Int) (hp : 0 ≤ p) (hpct : 0 ≤ pct) :
    applyPercentBigInt p pct false = p - p * pct / 100 := by
  unfold applyPercentBigInt
  rw [tdiv_hundred_eq_ediv _ (mul_nonneg hp hpct)]
  simp

/-- C1 — counterexample.  The claim asserts the spec's speed-sample formula
(`consistencyFactor = consistency / 200`) for all stats including
`consistency = 0`, but at `consistency = 0` the source substitutes the
default `100` (JS `racer.consistency || 100`): with `speed = 2`,
`aggression = 0`, `consistency = 0`, noise draw `0` and burst draw `1`, the
code produces the increment `3/4` while the spec's formula produces `0`. -/
theorem racerSpeedTick_cons_zero_counterexample :
    racerSpeedTick ⟨2, 0, 0⟩ 0 1 = 3/4 ∧ specSpeedSample 2 0 0 0 1 = 0 := by
  constructor
  · norm_num [racerSpeedTick, BASE_DRIFT]
  · norm_num [specSpeedSample, BASE_DRIFT]

/-- C1 — amended.  For every stat triple with `consistency ≠ 0` and all
random draws, the per-tick speed sample of the code equals the spec's
formula `max(0, speed + aggressionBurst + noise)` with
`consistencyFactor = consistency / 200`; and in the distance pass every
non-finished participant's distance grows by exactly that sample, computed
from the next two draws of the stream.  (At `consistency = 0` the code uses
the default `100` instead, per the counterexample.) -/
theorem racerSpeedTick_matches_spec :
    (∀ speed aggression consistency uNoise uBurst : ℚ, consistency ≠ 0 →
      racerSpeedTick ⟨speed, aggression, consistency⟩ uNoise uBurst
        = specSpeedSample speed aggression consistency uNoise uBurst) ∧
    (∀ (draws : ℕ → ℚ) (r : Participant) (rest : List Participant) (k : ℕ),
      r.finished = false →
      (advancePass draws (r :: rest) k).1
        = { r with distance := r.distance +
              racerSpeedTick ⟨r.speedStat, r.aggression, r.consistency⟩ (draws k) (draws (k+1)) }
          :: (advancePass draws rest (k+2)).1) := by
  constructor
  · intro speed aggression consistency uNoise uBurst h
    simp only [racerSpeedTick, specSpeedSample, if_neg h]
  · intro draws r rest k h
    simp only [advancePass, h, Bool.false_eq_true, if_false]

/-- C1 — witness for the amended theorem at concrete inputs. -/
theorem racerSpeedTick_matches_spec_witness :
    racerSpeedTick ⟨3, 0, 100⟩ 0 1 = specSpeedSample 3 0 100 0 1 ∧
    (advancePass (fun _ => 0) [⟨1, "A", 3, 0, 100, 0, false, 7⟩] 0).1
      = [⟨1, "A", 3, 0, 100, 0 + racerSpeedTick ⟨3, 0, 100⟩ 0 0, false, 7⟩] := by
  constructor
  · exact racerSpeedTick_matches_spec.1 3 0 100 0 1 (by norm_num)
  · rw [racerSpeedTick_matches_spec.2 (fun _ => 0) ⟨1, "A", 3, 0, 100, 0, false, 7⟩ [] 0 rfl]
    rfl

/-! ### Helper lemmas: updateFirst, jsIndexOf -/

theorem updateFirst_map_id (p : Participant → Bool) (f : Participant → Participant)
    (hf : ∀ r, (f r).id = r.id) :
    ∀ l : List Participant, (updateFirst p f l).map (·.id) = l.map (·.id)
  | [] => rfl
  | r :: rest => by
    by_cases h : p r
    · simp [updateFirst, h, hf]
    · simp [updateFirst, h, updateFirst_map_id p f hf rest]

theorem mem_updateFirst (p : Participant → Bool) (f : Participant → Participant) :
    ∀ {l : List Participant} {s : Participant}, s ∈ updateFirst p f l →
      s ∈ l ∨ ∃ r ∈ l, s = f r := by
  intro l
  induction l with
  | nil => intro s h; simp [updateFirst] at h
  | cons r rest ih =>
    intro s h
    by_cases hp : p r
    · simp only [updateFirst, if_pos hp, List.mem_cons] at h
      rcases h with h | h
      · exact Or.inr ⟨r, List.mem_cons_self r rest, h⟩
      · exact Or.inl (List.mem_cons_of_mem r h)
    · simp only [updateFirst, if_neg hp, List.mem_cons] at h
      rcases h with h | h
      · exact Or.inl (h ▸ List.mem_cons_self r rest)
      · rcases ih h with h2 | ⟨r2, hr2, hs⟩
        · exact Or.inl (List.mem_cons_of_mem r h2)
        · exact Or.inr ⟨r2, List.mem_cons_of_mem r hr2, hs⟩

theorem participantOf_updateFirst_ne (f : Participant → Participant) (x y : ℕ)
    (hf : ∀ r, (f r).id = r.id) (hxy : x ≠ y) :
    ∀ l, participantOf (updateFirst (fun r => r.id = y) f l) x = participantOf l x
  | [] => rfl
  | r :: rest => by
    by_cases h : r.id = y
    · have hrx : ¬ r.id = x := fun hx => hxy (hx ▸ h)
      have hfrx : ¬ (f r).id = x := by rw [hf]; exact hrx
      rw [participantOf, updateFirst, if_pos (by simpa using h),
        List.find?_cons_of_neg _ (by simpa using hfrx), participantOf,
        List.find?_cons_of_neg _ (by simpa using hrx)]
    · by_cases hx : r.id = x
      · rw [participantOf, updateFirst, if_neg (by simpa using h),
          List.find?_cons_of_pos _ (by simpa using hx), participantOf,
          List.find?_cons_of_pos _ (by simpa using hx)]
      · rw [participantOf, updateFirst, if_neg (by simpa using h),
          List.find?_cons_of_neg _ (by simpa using hx), participantOf,
          List.find?_cons_of_neg _ (by simpa using hx)]
        exact participantOf_updateFirst_ne f x y hf hxy rest

theorem participantOf_updateFirst_self (f : Participant → Participant) (y : ℕ)
    (hf : ∀ r, (f r).id = r.id) :
    ∀ l, participantOf (updateFirst (fun r => r.id = y) f l) y
      = (participantOf l y).map f
  | [] => rfl
  | r :: rest => by
    by_cases h : r.id = y
    · have hfr : (f r).id = y := by rw [hf]; exact h
      rw [participantOf, updateFirst, if_pos (by simpa using h),
        List.find?_cons_of_pos _ (by simpa using hfr), participantOf,
        List.find?_cons_of_pos _ (by simpa using h)]
      rfl
    · have hfr : ¬ (f r).id = y := by rw [hf]; exact h
      rw [participantOf, updateFirst, if_neg (by simpa using h),
        List.find?_cons_of_neg _ (by simpa using h), participantOf,
        List.find?_cons_of_neg _ (by simpa using h)]
      exact participantOf_updateFirst_self f y hf rest

theorem jsIndexOf_getElem (l : List ℕ) (j : ℕ) (x : ℕ)
    (hnd : l.Nodup) (hj : l[j]? = some x) : jsIndexOf l x = (j : Int) := by
  induction l generalizing j with
  | nil => simp at hj
  | cons a rest ih =>
    cases j with
    | zero =>
      rw [List.getElem?_cons_zero, Option.some.injEq] at hj
      simp [jsIndexOf, hj]
    | succ j =>
      rw [List.getElem?_cons_succ] at hj
      have hmem : x ∈ rest := List.getElem?_mem hj
      have hax : a ≠ x := fun h => (List.nodup_cons.mp hnd).1 (h ▸ hmem)
      have ihr := ih j (List.nodup_cons.mp hnd).2 hj
      have hge : (0 : Int) ≤ jsIndexOf rest x := by rw [ihr]; exact Int.ofNat_nonneg j
      have hne : jsIndexOf rest x ≠ -1 := by omega
      simp only [jsIndexOf, if_neg hax, if_neg hne, ihr]
      push_cast
      ring

/-! ### Helper lemmas: advancePass -/

theorem advancePass_map_id (draws : ℕ → ℚ) :
    ∀ (l : List Participant) (k : ℕ),
      ((advancePass draws l k).1).map (·.id) = l.map (·.id)
  | [], _ => rfl
  | r :: rest, k => by
    by_cases h : r.finished
    · simp [advancePass, h, advancePass_map_id draws rest k]
    · simp [advancePass, h, advancePass_map_id draws rest (k+2)]

theorem advancePass_map_price (draws : ℕ → ℚ) :
    ∀ (l : List Participant) (k : ℕ),
      ((advancePass draws l k).1).map (·.currentPriceWei) = l.map (·.currentPriceWei)
  | [], _ => rfl
  | r :: rest, k => by
    by_cases h : r.finished
    · simp [advancePass, h, advancePass_map_price draws rest k]
    · simp [advancePass, h, advancePass_map_price draws rest (k+2)]

theorem participantOf_advancePass_finished (draws : ℕ → ℚ) (x : ℕ) (r : Participant)
    (hr : r.finished = true) :
    ∀ (l : List Participant) (k : ℕ), participantOf l x = some r →
      participantOf (advancePass draws l k).1 x = some r := by
  intro l
  induction l with
  | nil => intro k h; simp [participantOf] at h
  | cons a rest ih =>
    intro k h
    by_cases hx : a.id = x
    · have ha : a = r := by simpa [participantOf, hx] using h
      subst ha
      simp [advancePass, hr, participantOf, hx]
    · have htail : participantOf rest x = some r := by simpa [participantOf, hx] using h
      by_cases hf : a.finished
      · simp only [advancePass, hf, if_true]
        rw [participantOf, List.find?_cons_of_neg _ (by simpa using hx)]
        exact ih k htail
      · simp only [advancePass, hf, Bool.false_eq_true, if_false]
        rw [participantOf, List.find?_cons_of_neg _ (by simpa using hx)]
        exact ih (k+2) htail

/-! ### Helper lemmas: the sort -/

theorem sortByDistanceDesc_perm (l : List Participant) : List.Perm (sortByDistanceDesc l) l :=
  List.mergeSort_perm l _

theorem participantOf_of_perm (x : ℕ) {l l2 : List Participant}
    (hnd : (l.map (·.id)).Nodup) (hp : List.Perm l l2) :
    participantOf l x = participantOf l2 x := by
  cases hfind : participantOf l x with
  | none =>
    rw [participantOf, List.find?_eq_none] at hfind
    symm
    rw [participantOf, List.find?_eq_none]
    intro a ha
    exact hfind a (hp.symm.subset ha)
  | some r =>
    have hrl : r ∈ l := List.mem_of_find?_eq_some hfind
    have hrx : r.id = x := by simpa using List.find?_some hfind
    have hsome : (l2.find? (fun s => s.id = x)).isSome := by
      rw [List.find?_isSome]
      exact ⟨r, hp.subset hrl, by simpa using hrx⟩
    cases hfind2 : l2.find? (fun s => s.id = x) with
    | none => rw [hfind2] at hsome; simp at hsome
    | some s =>
      have hsl : s ∈ l := hp.symm.subset (List.mem_of_find?_eq_some hfind2)
      have hsx : s.id = x := by simpa using List.find?_some hfind2
      have : r = s :=
        List.inj_on_of_nodup_map hnd hrl hsl (by rw [hrx, hsx])
      rw [participantOf, hfind2, this]

/-! ### Helper lemmas: price bounds -/

theorem overtake_price_nonneg (p : Int) (hp : 0 ≤ p) :
    0 ≤ applyPercentBigInt p OVERTAKE_BONUS_PCT true := by
  have h := applyPercent_increase_eq p 10 hp (by norm_num)
  simp only [OVERTAKE_BONUS_PCT]
  rw [h]; omega

theorem crash_price_nonneg (p : Int) (hp : 0 ≤ p) :
    0 ≤ applyPercentBigInt p CRASH_PENALTY_PCT false := by
  have h := applyPercent_decrease_eq p 20 hp (by norm_num)
  simp only [CRASH_PENALTY_PCT]
  rw [h]; omega

theorem winner_price_nonneg (p : Int) (hp : 0 ≤ p) :
    0 ≤ applyPercentBigInt p WINNER_BONUS_PCT true := by
  have h := applyPercent_increase_eq p 5 hp (by norm_num)
  simp only [WINNER_BONUS_PCT]
  rw [h]; omega

/-! ### Helper lemmas: overtakePass -/

theorem overtakePass_map_id (prev : List ℕ) :
    ∀ (cur : List ℕ) (i : ℕ) (st : List Participant),
      ((overtakePass prev cur i st).1).map (·.id) = st.map (·.id)
  | [], _, _ => rfl
  | id :: rest, i, st => by
    by_cases hp : jsIndexOf prev id > (i : Int)
    · cases hfind : st.find? (fun x => x.id = id) with
      | some racer =>
        simp only [overtakePass, if_pos hp, hfind]
        rw [overtakePass_map_id prev rest (i+1) _]
        exact updateFirst_map_id _
          (fun r => { r with currentPriceWei := applyPercentBigInt racer.currentPriceWei OVERTAKE_BONUS_PCT true }) (fun r => rfl) st
      | none =>
        simp only [overtakePass, if_pos hp, hfind]
        exact overtakePass_map_id prev rest (i+1) st
    · simp only [overtakePass, if_neg hp]
      exact overtakePass_map_id prev rest (i+1) st

theorem overtakePass_events_eq (prev : List ℕ) :
    ∀ (cur : List ℕ) (i : ℕ) (st : List Participant),
      (∀ x ∈ cur, x ∈ st.map (·.id)) →
      (overtakePass prev cur i st).2.1 = expectedOvertakeEvents prev cur i
  | [], _, _, _ => rfl
  | id :: rest, i, st, h => by
    have hid : id ∈ st.map (·.id) := h id (List.mem_cons_self id rest)
    have hrest : ∀ x ∈ rest, x ∈ st.map (·.id) := fun x hx => h x (List.mem_cons_of_mem id hx)
    by_cases hp : jsIndexOf prev id > (i : Int)
    · cases hfind : st.find? (fun x => x.id = id) with
      | some racer =>
        simp only [overtakePass, expectedOvertakeEvents, if_pos hp, hfind]
        congr 1
        apply overtakePass_events_eq prev rest (i+1)
        intro x hx
        rw [updateFirst_map_id _
          (fun r => { r with currentPriceWei := applyPercentBigInt racer.currentPriceWei OVERTAKE_BONUS_PCT true }) (fun r => rfl) st]
        exact hrest x hx
      | none =>
        exfalso
        rw [List.find?_eq_none] at hfind
        rw [List.mem_map] at hid
        obtain ⟨r, hr, hrid⟩ := hid
        exact hfind r hr (by simpa using hrid)
    · simp only [overtakePass, expectedOvertakeEvents, if_neg hp]
      exact overtakePass_events_eq prev rest (i+1) st hrest

theorem mem_expectedOvertakeEvents (prev : List ℕ) :
    ∀ (cur : List ℕ) (i x o n : ℕ),
      (RaceEvent.overtake x o n ∈ expectedOvertakeEvents prev cur i
        ↔ ∃ j, cur[j]? = some x ∧ ((i + j : ℕ) : Int) < jsIndexOf prev x
            ∧ o = (jsIndexOf prev x).toNat + 1 ∧ n = i + j + 1)
  | [], i, x, o, n => by simp [expectedOvertakeEvents]
  | id :: rest, i, x, o, n => by
    have ih := mem_expectedOvertakeEvents prev rest (i+1) x o n
    by_cases hp : jsIndexOf prev id > (i : Int)
    · simp only [expectedOvertakeEvents, if_pos hp, List.mem_cons, ih]
      constructor
      · rintro (heq | ⟨j, hj1, hj2, hj3, hj4⟩)
        · rw [RaceEvent.overtake.injEq] at heq
          obtain ⟨hx, ho, hn⟩ := heq
          subst hx
          exact ⟨0, by simp, by simpa using hp, ho, by omega⟩
        · refine ⟨j+1, by simpa using hj1, ?_, hj3, by omega⟩
          push_cast at hj2 ⊢
          omega
      · rintro ⟨j, hj1, hj2, hj3, hj4⟩
        cases j with
        | zero =>
          rw [List.getElem?_cons_zero, Option.some.injEq] at hj1
          subst hj1
          left
          rw [RaceEvent.overtake.injEq]
          exact ⟨rfl, hj3, by omega⟩
        | succ j =>
          right
          refine ⟨j, by simpa using hj1, ?_, hj3, by omega⟩
          push_cast at hj2 ⊢
          omega
    · simp only [expectedOvertakeEvents, if_neg hp, ih]
      constructor
      · rintro ⟨j, hj1, hj2, hj3, hj4⟩
        refine ⟨j+1, by simpa using hj1, ?_, hj3, by omega⟩
        push_cast at hj2 ⊢
        omega
      · rintro ⟨j, hj1, hj2, hj3, hj4⟩
        cases j with
        | zero =>
          exfalso
          rw [List.getElem?_cons_zero, Option.some.injEq] at hj1
          subst hj1
          push_cast at hj2
          omega
        | succ j =>
          refine ⟨j, by simpa using hj1, ?_, hj3, by omega⟩
          push_cast at hj2 ⊢
          omega

theorem overtakePass_event_id_mem (prev : List ℕ) :
    ∀ (cur : List ℕ) (i : ℕ) (st : List Participant) (x o n : ℕ),
      RaceEvent.overtake x o n ∈ (overtakePass prev cur i st).2.1 → x ∈ cur
  | [], _, _, _, _, _ => by intro h; simp [overtakePass] at h
  | id :: rest, i, st, x, o, n => by
    intro h
    by_cases hp : jsIndexOf prev id > (i : Int)
    · cases hfind : st.find? (fun r => r.id = id) with
      | some racer =>
        simp only [overtakePass, if_pos hp, hfind, List.mem_cons] at h
        rcases h with h | h
        · rw [RaceEvent.overtake.injEq] at h
          exact h.1 ▸ List.mem_cons_self id rest
        · exact List.mem_cons_of_mem id
            (overtakePass_event_id_mem prev rest (i+1) _ x o n h)
      | none =>
        simp only [overtakePass, if_pos hp, hfind] at h
        exact List.mem_cons_of_mem id
          (overtakePass_event_id_mem prev rest (i+1) st x o n h)
    · simp only [overtakePass, if_neg hp] at h
      exact List.mem_cons_of_mem id
        (overtakePass_event_id_mem prev rest (i+1) st x o n h)

theorem participantOf_overtakePass_not_mem (prev : List ℕ) :
    ∀ (cur : List ℕ) (i : ℕ) (st : List Participant) (x : ℕ), x ∉ cur →
      participantOf (overtakePass prev cur i st).1 x = participantOf st x
  | [], _, _, _, _ => rfl
  | id :: rest, i, st, x, hx => by
    have hxid : x ≠ id := fun h => hx (h ▸ List.mem_cons_self id rest)
    have hxr : x ∉ rest := fun h => hx (List.mem_cons_of_mem id h)
    by_cases hp : jsIndexOf prev id > (i : Int)
    · cases hfind : st.find? (fun r => r.id = id) with
      | some racer =>
        simp only [overtakePass, if_pos hp, hfind]
        rw [participantOf_overtakePass_not_mem prev rest (i+1) _ x hxr]
        exact participantOf_updateFirst_ne
          (fun r => { r with currentPriceWei := applyPercentBigInt racer.currentPriceWei OVERTAKE_BONUS_PCT true }) x id (fun r => rfl) hxid st
      | none =>
        simp only [overtakePass, if_pos hp, hfind]
        exact participantOf_overtakePass_not_mem prev rest (i+1) st x hxr
    · simp only [overtakePass, if_neg hp]
      exact participantOf_overtakePass_not_mem prev rest (i+1) st x hxr

theorem overtakePass_nonneg (prev : List ℕ) :
    ∀ (cur : List ℕ) (i : ℕ) (st : List Participant),
      (∀ r ∈ st, 0 ≤ r.currentPriceWei) →
      ∀ s ∈ (overtakePass prev cur i st).1, 0 ≤ s.currentPriceWei
  | [], _, _, h => h
  | id :: rest, i, st, h => by
    by_cases hp : jsIndexOf prev id > (i : Int)
    · cases hfind : st.find? (fun r => r.id = id) with
      | some racer =>
        simp only [overtakePass, if_pos hp, hfind]
        apply overtakePass_nonneg prev rest (i+1)
        intro s hs
        rcases mem_updateFirst _ _ hs with hs2 | ⟨r, hr, rfl⟩
        · exact h s hs2
        · exact overtake_price_nonneg _
            (h racer (List.mem_of_find?_eq_some hfind))
      | none =>
        simp only [overtakePass, if_pos hp, hfind]
        exact overtakePass_nonneg prev rest (i+1) st h
    · simp only [overtakePass, if_neg hp]
      exact overtakePass_nonneg prev rest (i+1) st h

theorem priceOf_overtakePass_of_event (prev : List ℕ) :
    ∀ (cur : List ℕ) (i : ℕ) (st : List Participant) (x o n : ℕ),
      cur.Nodup →
      RaceEvent.overtake x o n ∈ (overtakePass prev cur i st).2.1 →
      priceOf (overtakePass prev cur i st).1 x
          = (priceOf st x).map (fun p => applyPercentBigInt p OVERTAKE_BONUS_PCT true)
        ∧ ∃ p, priceOf st x = some p
            ∧ (x, applyPercentBigInt p OVERTAKE_BONUS_PCT true)
                ∈ (overtakePass prev cur i st).2.2
  | [], _, _, _, _, _, _, hmem => by simp [overtakePass] at hmem
  | id :: rest, i, st, x, o, n, hnd, hmem => by
    by_cases hp : jsIndexOf prev id > (i : Int)
    · cases hfind : st.find? (fun r => r.id = id) with
      | some racer =>
        simp only [overtakePass, if_pos hp, hfind, List.mem_cons] at hmem ⊢
        rcases hmem with heq | htail
        · rw [RaceEvent.overtake.injEq] at heq
          obtain ⟨hx, -, -⟩ := heq
          subst hx
          have hxr : x ∉ rest := (List.nodup_cons.mp hnd).1
          have hself := participantOf_updateFirst_self
            (fun r => { r with currentPriceWei :=
              applyPercentBigInt racer.currentPriceWei OVERTAKE_BONUS_PCT true })
            x (fun r => rfl) st
          have hx0 : participantOf st x = some racer := hfind
          constructor
          · rw [priceOf, participantOf_overtakePass_not_mem prev rest (i+1) _ x hxr,
              hself, hx0, priceOf, hx0]
            rfl
          · exact ⟨racer.currentPriceWei, by rw [priceOf, hx0]; rfl,
              Or.inl rfl⟩
        · have hxr : x ∈ rest :=
            overtakePass_event_id_mem prev rest (i+1) _ x o n htail
          have hxid : x ≠ id := fun h =>
            (List.nodup_cons.mp hnd).1 (h ▸ hxr)
          obtain ⟨ih1, p, hp1, hp2⟩ := priceOf_overtakePass_of_event prev rest (i+1)
            (updateFirst (fun r => r.id = id)
              (fun r => { r with currentPriceWei :=
                applyPercentBigInt racer.currentPriceWei OVERTAKE_BONUS_PCT true }) st)
            x o n (List.nodup_cons.mp hnd).2 htail
          have hne : participantOf (updateFirst (fun r => r.id = id)
              (fun r => { r with currentPriceWei :=
                applyPercentBigInt racer.currentPriceWei OVERTAKE_BONUS_PCT true }) st) x
              = participantOf st x :=
            participantOf_updateFirst_ne
              (fun r => { r with currentPriceWei := applyPercentBigInt racer.currentPriceWei OVERTAKE_BONUS_PCT true }) x id (fun r => rfl) hxid st
          constructor
          · rw [ih1, priceOf, hne, priceOf]
          · refine ⟨p, ?_, Or.inr hp2⟩
            rw [priceOf, ← hne, ← priceOf]
            exact hp1
      | none =>
        simp only [overtakePass, if_pos hp, hfind] at hmem ⊢
        exact priceOf_overtakePass_of_event prev rest (i+1) st x o n
          (List.nodup_cons.mp hnd).2 hmem
    · simp only [overtakePass, if_neg hp] at hmem ⊢
      exact priceOf_overtakePass_of_event prev rest (i+1) st x o n
        (List.nodup_cons.mp hnd).2 hmem

/-! ### Helper lemmas: crashPass -/

theorem crashPass_map_id (draws : ℕ → ℚ) :
    ∀ (l : List Participant) (k : ℕ),
      ((crashPass draws l k).1).map (·.id) = l.map (·.id)
  | [], _ => rfl
  | r :: rest, k => by
    by_cases hf : r.finished
    · simp [crashPass, hf, crashPass_map_id draws rest k]
    · by_cases hc : draws k < crashProb r.aggression r.consistency
      · simp [crashPass, hf, hc, crashPass_map_id draws rest (k+1)]
      · simp [crashPass, hf, hc, crashPass_map_id draws rest (k+1)]

theorem participantOf_crashPass_finished (draws : ℕ → ℚ) (x : ℕ) (r : Participant)
    (hr : r.finished = true) :
    ∀ (l : List Participant) (k : ℕ), participantOf l x = some r →
      participantOf (crashPass draws l k).1 x = some r := by
  intro l
  induction l with
  | nil => intro k h; simp [participantOf] at h
  | cons a rest ih =>
    intro k h
    by_cases hx : a.id = x
    · have ha : a = r := by simpa [participantOf, hx] using h
      subst ha
      simp [crashPass, hr, participantOf, hx]
    · have htail : participantOf rest x = some r := by
        rw [participantOf, List.find?_cons_of_neg _ (by simpa using hx)] at h
        exact h
      by_cases hf : a.finished
      · simp only [crashPass, hf, if_true]
        rw [participantOf, List.find?_cons_of_neg _ (by simpa using hx)]
        exact ih k htail
      · by_cases hc : draws k < crashProb a.aggression a.consistency
        · simp only [crashPass, hf, Bool.false_eq_true, if_false, if_pos hc]
          rw [participantOf, List.find?_cons_of_neg _ (by simpa using hx)]
          exact ih (k+1) htail
        · simp only [crashPass, hf, Bool.false_eq_true, if_false, if_neg hc]
          rw [participantOf, List.find?_cons_of_neg _ (by simpa using hx)]
          exact ih (k+1) htail

theorem crashPass_nonneg (draws : ℕ → ℚ) :
    ∀ (l : List Participant) (k : ℕ),
      (∀ r ∈ l, 0 ≤ r.currentPriceWei) →
      ∀ s ∈ (crashPass draws l k).1, 0 ≤ s.currentPriceWei
  | [], _, _ => by intro s hs; simp [crashPass] at hs
  | r :: rest, k, h => by
    have hhead : 0 ≤ r.currentPriceWei := h r (List.mem_cons_self r rest)
    have htail : ∀ a ∈ rest, 0 ≤ a.currentPriceWei :=
      fun a ha => h a (List.mem_cons_of_mem r ha)
    by_cases hf : r.finished
    · intro s hs
      simp only [crashPass, hf, if_true, List.mem_cons] at hs
      rcases hs with rfl | hs
      · exact hhead
      · exact crashPass_nonneg draws rest k htail s hs
    · by_cases hc : draws k < crashProb r.aggression r.consistency
      · intro s hs
        simp only [crashPass, hf, Bool.false_eq_true, if_false, if_pos hc,
          List.mem_cons] at hs
        rcases hs with rfl | hs
        · exact crash_price_nonneg _ hhead
        · exact crashPass_nonneg draws rest (k+1) htail s hs
      · intro s hs
        simp only [crashPass, hf, Bool.false_eq_true, if_false, if_neg hc,
          List.mem_cons] at hs
        rcases hs with rfl | hs
        · exact hhead
        · exact crashPass_nonneg draws rest (k+1) htail s hs

theorem crashPass_no_overtake_events (draws : ℕ → ℚ) :
    ∀ (l : List Participant) (k : ℕ) (x o n : ℕ),
      RaceEvent.overtake x o n ∉ (crashPass draws l k).2.2.1
  | [], _, _, _, _ => by simp [crashPass]
  | r :: rest, k, x, o, n => by
    by_cases hf : r.finished
    · simp only [crashPass, hf, if_true]
      exact crashPass_no_overtake_events draws rest k x o n
    · by_cases hc : draws k < crashProb r.aggression r.consistency
      · simp only [crashPass, hf, Bool.false_eq_true, if_false, if_pos hc,
          List.mem_cons]
        rintro (h | h)
        · exact RaceEvent.noConfusion h
        · exact crashPass_no_overtake_events draws rest (k+1) x o n h
      · simp only [crashPass, hf, Bool.false_eq_true, if_false, if_neg hc]
        exact crashPass_no_overtake_events draws rest (k+1) x o n

/-! ### Helper lemmas: finishPass -/

theorem finishPass_eq_map :
    ∀ l : List Participant, (finishPass l).1 = l.map (fun r =>
      if r.finished = false ∧ RACE_DISTANCE ≤ r.distance then
        { r with
          finished := true,
          currentPriceWei := applyPercentBigInt r.currentPriceWei WINNER_BONUS_PCT true }
      else r)
  | [] => rfl
  | r :: rest => by
    cases hf : r.finished with
    | false =>
      by_cases hd : RACE_DISTANCE ≤ r.distance
      · simp [finishPass, hf, hd, finishPass_eq_map rest]
      · simp [finishPass, hf, hd, finishPass_eq_map rest]
    | true =>
      simp [finishPass, hf, finishPass_eq_map rest]

theorem participantOf_map_id_preserving (g : Participant → Participant)
    (hg : ∀ r, (g r).id = r.id) (x : ℕ) :
    ∀ l, participantOf (l.map g) x = (participantOf l x).map g
  | [] => rfl
  | r :: rest => by
    by_cases h : r.id = x
    · have hgr : (g r).id = x := by rw [hg]; exact h
      rw [List.map_cons, participantOf, List.find?_cons_of_pos _ (by simpa using hgr),
        participantOf, List.find?_cons_of_pos _ (by simpa using h)]
      rfl
    · have hgr : ¬ (g r).id = x := by rw [hg]; exact h
      rw [List.map_cons, participantOf, List.find?_cons_of_neg _ (by simpa using hgr),
        participantOf, List.find?_cons_of_neg _ (by simpa using h)]
      exact participantOf_map_id_preserving g hg x rest

theorem finishOne_id (r : Participant) :
    (if r.finished = false ∧ RACE_DISTANCE ≤ r.distance then
      { r with
        finished := true,
        currentPriceWei := applyPercentBigInt r.currentPriceWei WINNER_BONUS_PCT true }
    else r).id = r.id := by
  by_cases h : r.finished = false ∧ RACE_DISTANCE ≤ r.distance <;> simp [h]

theorem finishPass_map_id (l : List Participant) :
    ((finishPass l).1).map (·.id) = l.map (·.id) := by
  rw [finishPass_eq_map, List.map_map]
  apply List.map_congr_left
  intro r _
  exact finishOne_id r

theorem finishPass_nonneg (l : List Participant)
    (h : ∀ r ∈ l, 0 ≤ r.currentPriceWei) :
    ∀ s ∈ (finishPass l).1, 0 ≤ s.currentPriceWei := by
  rw [finishPass_eq_map]
  intro s hs
  rw [List.mem_map] at hs
  obtain ⟨r, hr, rfl⟩ := hs
  by_cases hc : r.finished = false ∧ RACE_DISTANCE ≤ r.distance
  · simp only [if_pos hc]
    exact winner_price_nonneg _ (h r hr)
  · simp only [if_neg hc]
    exact h r hr

theorem finishPass_no_overtake_events :
    ∀ (l : List Participant) (x o n : ℕ),
      RaceEvent.overtake x o n ∉ (finishPass l).2.1
  | [], _, _, _ => by simp [finishPass]
  | r :: rest, x, o, n => by
    by_cases hc : (!r.finished && decide (RACE_DISTANCE ≤ r.distance)) = true
    · simp only [finishPass, hc, if_true, List.mem_cons]
      rintro (h | h)
      · exact RaceEvent.noConfusion h
      · exact finishPass_no_overtake_events rest x o n h
    · simp only [finishPass, hc, if_false]
      exact finishPass_no_overtake_events rest x o n

/-! ### Helper lemmas: raceTick level -/

theorem raceTick_lastOrder (draws : ℕ → ℚ) (st : RaceState) (k : ℕ) :
    (raceTick draws st k).state.lastOrder
      = some ((sortByDistanceDesc (advancePass draws st.participants k).1).map (·.id)) := by
  cases st with
  | mk parts lo =>
    cases lo with
    | none => rfl
    | some prev => rfl

theorem raceTick_participants_eq (draws : ℕ → ℚ) (st : RaceState) (k : ℕ) :
    (raceTick draws st k).state.participants
      = (finishPass (crashPass draws (midTickState draws st k)
          ((advancePass draws st.participants k).2)).1).1 := by
  cases st with
  | mk parts lo =>
    cases lo with
    | none => rfl
    | some prev => rfl

theorem raceTick_map_id_perm (draws : ℕ → ℚ) (st : RaceState) (k : ℕ) :
    List.Perm ((raceTick draws st k).state.participants.map (·.id))
      (st.participants.map (·.id)) := by
  rw [raceTick_participants_eq, finishPass_map_id, crashPass_map_id]
  have hmid : (midTickState draws st k).map (·.id)
      = (sortByDistanceDesc (advancePass draws st.participants k).1).map (·.id) := by
    cases st with
    | mk parts lo =>
      cases lo with
      | none => rfl
      | some prev =>
        exact overtakePass_map_id prev _ 0 _
  rw [hmid, ← advancePass_map_id draws st.participants k]
  exact (sortByDistanceDesc_perm _).map (·.id)

/-- C2: after the per-tick stable sort by distance descending — (i) on the
first tick (no `_lastOrder`) no Overtake event is emitted and `_lastOrder`
is initialised from the first sort; (ii) on a later tick an Overtake event
with `oldRank = p+1`, `newRank = i+1` is emitted exactly for the ids at new
index `i` whose previous index `p` satisfies `p > i`; (iii) the sort is
stable, so two participants with equal distance keep their prior relative
order; (iv) hence when the advanced field is already in sorted order (ties
included) and `_lastOrder` matches it, no Overtake event fires. -/
theorem overtake_detection_correct :
    (∀ (draws : ℕ → ℚ) (st : RaceState) (k : ℕ), st.lastOrder = none →
        (∀ x o n, RaceEvent.overtake x o n ∉ (raceTick draws st k).events) ∧
        (raceTick draws st k).state.lastOrder
          = some ((sortByDistanceDesc (advancePass draws st.participants k).1).map (·.id))) ∧
    (∀ (draws : ℕ → ℚ) (st : RaceState) (k : ℕ) (prev : List ℕ),
        st.lastOrder = some prev →
        ∀ x o n, (RaceEvent.overtake x o n ∈ (raceTick draws st k).events ↔
          ∃ i : ℕ,
            ((sortByDistanceDesc (advancePass draws st.participants k).1).map (·.id))[i]?
                = some x
              ∧ (i : Int) < jsIndexOf prev x
              ∧ o = (jsIndexOf prev x).toNat + 1 ∧ n = i + 1)) ∧
    (∀ (l : List Participant) (a b : Participant), a.distance = b.distance →
        List.Sublist [a, b] l → List.Sublist [a, b] (sortByDistanceDesc l)) ∧
    (∀ (draws : ℕ → ℚ) (st : RaceState) (k : ℕ),
        ((advancePass draws st.participants k).1).Pairwise
            (fun a b => b.distance ≤ a.distance) →
        (((advancePass draws st.participants k).1).map (·.id)).Nodup →
        st.lastOrder = some (((advancePass draws st.participants k).1).map (·.id)) →
        ∀ x o n, RaceEvent.overtake x o n ∉ (raceTick draws st k).events) := by
  have htrans : ∀ a b c : Participant,
      (fun a b : Participant => decide (b.distance ≤ a.distance)) a b = true →
      (fun a b : Participant => decide (b.distance ≤ a.distance)) b c = true →
      (fun a b : Participant => decide (b.distance ≤ a.distance)) a c = true := by
    intro a b c h1 h2
    simp only [decide_eq_true_eq] at h1 h2 ⊢
    exact le_trans h2 h1
  have htotal : ∀ a b : Participant,
      ((fun a b : Participant => decide (b.distance ≤ a.distance)) a b
        || (fun a b : Participant => decide (b.distance ≤ a.distance)) b a) = true := by
    intro a b
    simp only [Bool.or_eq_true, decide_eq_true_eq]
    exact le_total b.distance a.distance
  have hfirst : ∀ (draws : ℕ → ℚ) (st : RaceState) (k : ℕ), st.lastOrder = none →
      (∀ x o n, RaceEvent.overtake x o n ∉ (raceTick draws st k).events) ∧
      (raceTick draws st k).state.lastOrder
        = some ((sortByDistanceDesc (advancePass draws st.participants k).1).map (·.id)) := by
    intro draws st k h
    obtain ⟨parts, lo⟩ := st
    have hlo : lo = none := h
    subst hlo
    refine ⟨?_, rfl⟩
    intro x o n hmem
    simp only [raceTick, List.mem_append] at hmem
    rcases hmem with hmem | hmem
    · exact crashPass_no_overtake_events _ _ _ x o n hmem
    · exact finishPass_no_overtake_events _ x o n hmem
  have hlater : ∀ (draws : ℕ → ℚ) (st : RaceState) (k : ℕ) (prev : List ℕ),
      st.lastOrder = some prev →
      ∀ x o n, (RaceEvent.overtake x o n ∈ (raceTick draws st k).events ↔
        ∃ i : ℕ,
          ((sortByDistanceDesc (advancePass draws st.participants k).1).map (·.id))[i]?
              = some x
            ∧ (i : Int) < jsIndexOf prev x
            ∧ o = (jsIndexOf prev x).toNat + 1 ∧ n = i + 1) := by
    intro draws st k prev h x o n
    obtain ⟨parts, lo⟩ := st
    have hlo : lo = some prev := h
    subst hlo
    simp only [raceTick, List.mem_append]
    constructor
    · rintro ((hmem | hmem) | hmem)
      · rw [overtakePass_events_eq prev _ 0 _ (fun y hy => hy)] at hmem
        obtain ⟨j, hj1, hj2, hj3, hj4⟩ :=
          (mem_expectedOvertakeEvents prev _ 0 x o n).mp hmem
        exact ⟨j, hj1, by simpa using hj2, hj3, by omega⟩
      · exact absurd hmem (crashPass_no_overtake_events _ _ _ x o n)
      · exact absurd hmem (finishPass_no_overtake_events _ x o n)
    · rintro ⟨i, hi1, hi2, hi3, hi4⟩
      left; left
      rw [overtakePass_events_eq prev _ 0 _ (fun y hy => hy)]
      exact (mem_expectedOvertakeEvents prev _ 0 x o n).mpr
        ⟨i, hi1, by simpa using hi2, hi3, by omega⟩
  refine ⟨hfirst, hlater, ?_, ?_⟩
  · intro l a b hd hsub
    exact List.pair_sublist_mergeSort htrans htotal (by simpa using le_of_eq hd.symm) hsub
  · intro draws st k hsorted hnd hlo x o n hmem
    have hsortedB : ((advancePass draws st.participants k).1).Pairwise
        (fun a b : Participant => decide (b.distance ≤ a.distance) = true) :=
      hsorted.imp (fun h => by simpa using h)
    have hfix : sortByDistanceDesc (advancePass draws st.participants k).1
        = (advancePass draws st.participants k).1 :=
      List.mergeSort_of_sorted hsortedB
    obtain ⟨i, hi1, hi2, -, -⟩ :=
      (hlater draws st k _ hlo x o n).mp hmem
    rw [hfix] at hi1
    have := jsIndexOf_getElem _ i x hnd hi1
    omega

/-- C2 — witness: on a first tick no overtake event is present, and on a
singleton later tick the membership characterisation rules an overtake out. -/
theorem overtake_detection_witness :
    (RaceEvent.overtake 1 1 1 ∉ (raceTick (fun _ => 0) ⟨[], none⟩ 0).events) ∧
    (RaceEvent.overtake 1 2 1 ∉
      (raceTick (fun _ => 0) ⟨[⟨1, "A", 1, 0, 200, 0, true, 100⟩], some [1]⟩ 0).events) := by
  constructor
  · exact (overtake_detection_correct.1 (fun _ => 0) ⟨[], none⟩ 0 rfl).1 1 1 1
  · rw [overtake_detection_correct.2.1 (fun _ => 0)
      ⟨[⟨1, "A", 1, 0, 200, 0, true, 100⟩], some [1]⟩ 0 [1] rfl 1 2 1]
    rintro ⟨i, hi1, hi2, -, -⟩
    have hadv : (advancePass (fun _ => (0 : ℚ)) [⟨1, "A", 1, 0, 200, 0, true, 100⟩] 0).1
        = [⟨1, "A", 1, 0, 200, 0, true, 100⟩] := by
      simp [advancePass]
    rw [hadv] at hi1
    have hsort : sortByDistanceDesc [(⟨1, "A", 1, 0, 200, 0, true, 100⟩ : Participant)]
        = [⟨1, "A", 1, 0, 200, 0, true, 100⟩] := by
      simp [sortByDistanceDesc]
    rw [hsort] at hi1
    have hjs : jsIndexOf [1] 1 = 0 := by simp [jsIndexOf]
    rw [hjs] at hi2
    cases i with
    | zero => omega
    | succ i => simp at hi1

/-- C3: for every Overtake event the participant's local price is set to
`price_before + floor(price_before * 10 / 100)` (exact integer arithmetic),
the corresponding write carries exactly that value, and the final race state
is the same for every transport success oracle — a failed write is only
logged, never retried, and the local update is never rolled back. -/
theorem overtake_price_update :
    (∀ p : Int, 0 ≤ p →
        applyPercentBigInt p OVERTAKE_BONUS_PCT true = p + p * 10 / 100) ∧
    (∀ (prev cur : List ℕ) (i : ℕ) (st : List Participant) (x o n : ℕ),
        cur.Nodup →
        RaceEvent.overtake x o n ∈ (overtakePass prev cur i st).2.1 →
        priceOf (overtakePass prev cur i st).1 x
            = (priceOf st x).map (fun p => applyPercentBigInt p OVERTAKE_BONUS_PCT true)
          ∧ ∃ p, priceOf st x = some p
              ∧ (x, applyPercentBigInt p OVERTAKE_BONUS_PCT true)
                  ∈ (overtakePass prev cur i st).2.2) ∧
    (∀ (draws : ℕ → ℚ) (oracleA oracleB : ℕ → Bool) (fuel : ℕ) (st : RaceState),
        (runRaceTransport draws oracleA fuel st).map (·.1)
          = (runRaceTransport draws oracleB fuel st).map (·.1)) := by
  refine ⟨?_, ?_, ?_⟩
  · intro p hp
    simpa [OVERTAKE_BONUS_PCT] using applyPercent_increase_eq p 10 hp (by norm_num)
  · intro prev cur i st x o n hnd hmem
    exact priceOf_overtakePass_of_event prev cur i st x o n hnd hmem
  · intro draws oracleA oracleB fuel st
    unfold runRaceTransport
    cases runRaceLoop draws fuel st 0 <;> simp

/-- C3 — witness: a concrete overtake (previous index 1, new index 0) bumps
the local price of participant 1 from 100 to `applyPercentBigInt 100 10`. -/
theorem overtake_price_update_witness :
    priceOf (overtakePass [5, 1] [1] 0 [⟨1, "A", 3, 0, 100, 0, false, 100⟩]).1 1
      = some (applyPercentBigInt 100 OVERTAKE_BONUS_PCT true) := by
  have h := (overtake_price_update.2.1 [5, 1] [1] 0 [⟨1, "A", 3, 0, 100, 0, false, 100⟩]
    1 2 1 (by decide) (by decide)).1
  rw [h]
  rfl

/-- C4: a crash on a non-finished participant sets its distance to
`max(0, distance - speedStat*2)` and its price to
`max(0, price - floor(price*20/100))` (for a non-negative integer price the
decrease can never go below zero, so the unclamped source expression equals
the clamped value); the crash pass keeps the array order, and the order
snapshot used by the next tick's comparison is taken before the crash pass,
so the rank effect of the distance loss is only seen at the next tick. -/
theorem crash_effects :
    (∀ p : Int, 0 ≤ p →
        applyPercentBigInt p CRASH_PENALTY_PCT false = max 0 (p - p * 20 / 100)) ∧
    (∀ (draws : ℕ → ℚ) (r : Participant) (rest : List Participant) (k : ℕ),
        r.finished = false →
        draws k < crashProb r.aggression r.consistency →
        (crashPass draws (r :: rest) k).1
          = { r with
              distance := max 0 (r.distance - r.speedStat * 2),
              currentPriceWei := applyPercentBigInt r.currentPriceWei CRASH_PENALTY_PCT false }
            :: (crashPass draws rest (k+1)).1) ∧
    (∀ (draws : ℕ → ℚ) (l : List Participant) (k : ℕ),
        ((crashPass draws l k).1).map (·.id) = l.map (·.id)) ∧
    (∀ (draws : ℕ → ℚ) (st : RaceState) (k : ℕ),
        (raceTick draws st k).state.lastOrder
          = some ((sortByDistanceDesc (advancePass draws st.participants k).1).map (·.id))) := by
  refine ⟨?_, ?_, crashPass_map_id, raceTick_lastOrder⟩
  · intro p hp
    simp only [CRASH_PENALTY_PCT]
    rw [applyPercent_decrease_eq p 20 hp (by norm_num)]
    symm
    apply max_eq_right
    omega
  · intro draws r rest k hf hc
    simp only [crashPass, hf, Bool.false_eq_true, if_false, if_pos hc]

/-- C4 — witness: a concrete crash halves nothing but applies both formulas. -/
theorem crash_effects_witness :
    (crashPass (fun _ => 0) [⟨1, "A", 1, 0, 0, 10, false, 100⟩] 0).1
      = [⟨1, "A", 1, 0, 0, max 0 (10 - 1 * 2), false,
          applyPercentBigInt 100 CRASH_PENALTY_PCT false⟩] := by
  rw [crash_effects.2.1 (fun _ => 0) ⟨1, "A", 1, 0, 0, 10, false, 100⟩ [] 0 rfl
    (by norm_num [crashProb])]
  rfl

/-- C5: the finish pass marks exactly the not-yet-finished participants whose
(post-crash) distance has reached `RACE_DISTANCE`, setting
`price + floor(price*5/100)`, and leaves every already-finished participant
untouched; within a tick it runs on the output of the crash pass. -/
theorem finish_pass_correct :
    (∀ p : Int, 0 ≤ p →
        applyPercentBigInt p WINNER_BONUS_PCT true = p + p * 5 / 100) ∧
    (∀ l : List Participant, (finishPass l).1 = l.map (fun r =>
        if r.finished = false ∧ RACE_DISTANCE ≤ r.distance then
          { r with
            finished := true,
            currentPriceWei := applyPercentBigInt r.currentPriceWei WINNER_BONUS_PCT true }
        else r)) ∧
    (∀ (draws : ℕ → ℚ) (st : RaceState) (k : ℕ),
        (raceTick draws st k).state.participants
          = (finishPass (crashPass draws (midTickState draws st k)
              ((advancePass draws st.participants k).2)).1).1) := by
  refine ⟨?_, finishPass_eq_map, raceTick_participants_eq⟩
  intro p hp
  simpa [WINNER_BONUS_PCT] using applyPercent_increase_eq p 5 hp (by norm_num)

/-- C5 — witness for the +5% finish formula at price 100. -/
theorem finish_pass_witness :
    applyPercentBigInt 100 WINNER_BONUS_PCT true = 100 + 100 * 5 / 100 :=
  finish_pass_correct.1 100 (by norm_num)

/-- C6: write failures never abort the race — the final race state is the
same function of the draws and the fuel for every transport success oracle
(in particular for the all-fail oracle), and whenever the oracle-free loop
completes, the loop with any oracle completes with the same state, the
failures being recorded only in the write log. -/
theorem write_failures_never_abort :
    (∀ (draws : ℕ → ℚ) (oracleA oracleB : ℕ → Bool) (fuel : ℕ) (st : RaceState),
        (runRaceTransport draws oracleA fuel st).map (·.1)
          = (runRaceTransport draws oracleB fuel st).map (·.1)) ∧
    (∀ (draws : ℕ → ℚ) (oracle : ℕ → Bool) (fuel : ℕ) (st : RaceState) res,
        runRaceLoop draws fuel st 0 = some res →
        runRaceTransport draws oracle fuel st
          = some (res.1, res.2.2.mapIdx (fun i w => (w.1, w.2, oracle i)))) := by
  constructor
  · intro draws oA oB fuel st
    unfold runRaceTransport
    cases runRaceLoop draws fuel st 0 <;> simp
  · intro draws oracle fuel st res h
    unfold runRaceTransport
    rw [h]

/-- C6 — witness: with the all-fail oracle the loop still returns its final
state; on an immediately-complete race the transport run yields it. -/
theorem write_failures_never_abort_witness :
    runRaceTransport (fun _ => 0) (fun _ => false) 1 ⟨[], none⟩
      = some (⟨[], some []⟩, []) := by
  rw [write_failures_never_abort.2 (fun _ => 0) (fun _ => false) 1 ⟨[], none⟩
    (⟨[], some []⟩, [], []) (by
      simp [runRaceLoop, raceTick, advancePass, sortByDistanceDesc, crashPass,
        finishPass, allFinished])]
  rfl

/-! ### Helper lemmas: non-negativity through a tick and the loop -/

theorem advancePass_nonneg (draws : ℕ → ℚ) (l : List Participant) (k : ℕ)
    (h : ∀ r ∈ l, 0 ≤ r.currentPriceWei) :
    ∀ s ∈ (advancePass draws l k).1, 0 ≤ s.currentPriceWei := by
  intro s hs
  have hmem : s.currentPriceWei ∈ ((advancePass draws l k).1).map (·.currentPriceWei) :=
    List.mem_map_of_mem _ hs
  rw [advancePass_map_price] at hmem
  rw [List.mem_map] at hmem
  obtain ⟨r, hr, hre⟩ := hmem
  rw [← hre]
  exact h r hr

theorem midTickState_nonneg (draws : ℕ → ℚ) (st : RaceState) (k : ℕ)
    (h : ∀ r ∈ st.participants, 0 ≤ r.currentPriceWei) :
    ∀ s ∈ midTickState draws st k, 0 ≤ s.currentPriceWei := by
  have hadv := advancePass_nonneg draws st.participants k h
  have hsorted : ∀ s ∈ sortByDistanceDesc (advancePass draws st.participants k).1,
      0 ≤ s.currentPriceWei := by
    intro s hs
    exact hadv s ((sortByDistanceDesc_perm _).subset hs)
  obtain ⟨parts, lo⟩ := st
  cases lo with
  | none => exact hsorted
  | some prev =>
    exact overtakePass_nonneg prev _ 0 _ hsorted

/-- C9: if every participant's local price is a non-negative integer, it
stays a non-negative integer through every overtake, crash and finish price
adjustment of a tick, and hence through the whole race loop — in particular
the -20% crash decrease never produces a negative value. -/
theorem prices_stay_nonneg :
    (∀ (draws : ℕ → ℚ) (st : RaceState) (k : ℕ),
        (∀ r ∈ st.participants, 0 ≤ r.currentPriceWei) →
        ∀ s ∈ (raceTick draws st k).state.participants, 0 ≤ s.currentPriceWei) ∧
    (∀ (draws : ℕ → ℚ) (fuel : ℕ) (st : RaceState) (k : ℕ) res,
        runRaceLoop draws fuel st k = some res →
        (∀ r ∈ st.participants, 0 ≤ r.currentPriceWei) →
        ∀ s ∈ res.1.participants, 0 ≤ s.currentPriceWei) := by
  have tick : ∀ (draws : ℕ → ℚ) (st : RaceState) (k : ℕ),
      (∀ r ∈ st.participants, 0 ≤ r.currentPriceWei) →
      ∀ s ∈ (raceTick draws st k).state.participants, 0 ≤ s.currentPriceWei := by
    intro draws st k h
    rw [raceTick_participants_eq]
    exact finishPass_nonneg _
      (crashPass_nonneg draws _ _ (midTickState_nonneg draws st k h))
  refine ⟨tick, ?_⟩
  intro draws fuel
  induction fuel with
  | zero => intro st k res h; exact absurd h (by simp [runRaceLoop])
  | succ fuel ih =>
    intro st k res h hpos
    simp only [runRaceLoop] at h
    by_cases hall : allFinished (raceTick draws st k).state.participants = true
    · rw [if_pos hall] at h
      have hres := (Option.some.injEq _ _).mp h
      intro s hs
      rw [← hres] at hs
      exact tick draws st k hpos s hs
    · rw [if_neg hall] at h
      cases hrec : runRaceLoop draws fuel (raceTick draws st k).state
          (raceTick draws st k).nextDraw with
      | none => rw [hrec] at h; exact absurd h (by simp)
      | some res2 =>
        rw [hrec] at h
        have hres := (Option.some.injEq _ _).mp h
        intro s hs
        rw [← hres] at hs
        exact ih (raceTick draws st k).state (raceTick draws st k).nextDraw res2 hrec
          (tick draws st k hpos) s hs

/-- C9 — witness on a concrete one-participant tick with price 50. -/
theorem prices_stay_nonneg_witness :
    ((raceTick (fun _ => 0) ⟨[⟨1, "A", 1, 0, 200, 4, true, 50⟩], some [1]⟩ 0).state.participants.all
      (fun s => 0 ≤ s.currentPriceWei)) = true := by
  rw [List.all_eq_true]
  intro s hs
  simpa using prices_stay_nonneg.1 (fun _ => 0)
    ⟨[⟨1, "A", 1, 0, 200, 4, true, 50⟩], some [1]⟩ 0
    (by intro r hr; rw [List.mem_singleton] at hr; subst hr; norm_num) s hs

/-! ### Helper lemmas: the exit condition of the race loop -/

theorem tickIter_succ (draws : ℕ → ℚ) (n : ℕ) (st : RaceState) (k : ℕ) :
    tickIter draws (n+1) (st, k)
      = tickIter draws n ((raceTick draws st k).state, (raceTick draws st k).nextDraw) := rfl

/-- C7 — amended: the loop exits successfully exactly at a tick after which
every participant is finished — a returned final state always satisfies
`allFinished`, and the loop returns a value within `fuel` ticks precisely
when some tick count `n ≤ fuel` makes every participant finished.  (The
claim's further assertion — termination on every draw sequence whenever all
`speedStat > 0` — is refuted by the counterexample below.) -/
theorem race_loop_exit_condition :
    (∀ (draws : ℕ → ℚ) (fuel : ℕ) (st : RaceState) (k : ℕ) res,
        runRaceLoop draws fuel st k = some res →
        allFinished res.1.participants = true) ∧
    (∀ (draws : ℕ → ℚ) (fuel : ℕ) (st : RaceState) (k : ℕ),
        (runRaceLoop draws fuel st k).isSome = true ↔
          ∃ n, 1 ≤ n ∧ n ≤ fuel ∧
            allFinished (tickIter draws n (st, k)).1.participants = true) := by
  constructor
  · intro draws fuel
    induction fuel with
    | zero => intro st k res h; exact absurd h (by simp [runRaceLoop])
    | succ fuel ih =>
      intro st k res h
      simp only [runRaceLoop] at h
      by_cases hall : allFinished (raceTick draws st k).state.participants = true
      · rw [if_pos hall] at h
        have hres := (Option.some.injEq _ _).mp h
        rw [← hres]
        exact hall
      · rw [if_neg hall] at h
        cases hrec : runRaceLoop draws fuel (raceTick draws st k).state
            (raceTick draws st k).nextDraw with
        | none => rw [hrec] at h; exact absurd h (by simp)
        | some res2 =>
          rw [hrec] at h
          have hres := (Option.some.injEq _ _).mp h
          rw [← hres]
          exact ih _ _ res2 hrec
  · intro draws fuel
    induction fuel with
    | zero =>
      intro st k
      simp only [runRaceLoop, Option.isSome_none]
      constructor
      · intro h; exact absurd h (by simp)
      · rintro ⟨n, h1, h2, -⟩; omega
    | succ fuel ih =>
      intro st k
      simp only [runRaceLoop]
      by_cases hall : allFinished (raceTick draws st k).state.participants = true
      · rw [if_pos hall]
        simp only [Option.isSome_some, true_iff]
        exact ⟨1, le_refl 1, by omega, by rw [tickIter_succ]; exact hall⟩
      · rw [if_neg hall]
        have hmain : (match runRaceLoop draws fuel (raceTick draws st k).state
              (raceTick draws st k).nextDraw with
            | none => none
            | some res => some (res.1, (raceTick draws st k).events ++ res.2.1,
                (raceTick draws st k).writes ++ res.2.2)).isSome
            = (runRaceLoop draws fuel (raceTick draws st k).state
                (raceTick draws st k).nextDraw).isSome := by
          cases runRaceLoop draws fuel (raceTick draws st k).state
            (raceTick draws st k).nextDraw <;> rfl
        rw [hmain, ih]
        constructor
        · rintro ⟨n, h1, h2, h3⟩
          refine ⟨n+1, by omega, by omega, ?_⟩
          rw [tickIter_succ]
          exact h3
        · rintro ⟨n, h1, h2, h3⟩
          cases n with
          | zero => omega
          | succ n =>
            rw [tickIter_succ] at h3
            cases n with
            | zero =>
              exact absurd (by simpa [tickIter] using h3) hall
            | succ n =>
              exact ⟨n+1, by omega, by omega, h3⟩

/-- C7 — witness: on an immediately-complete race the exit condition holds
at the returned state. -/
theorem race_loop_exit_condition_witness :
    allFinished (((⟨[], some []⟩ : RaceState), ([] : List RaceEvent),
      ([] : List (ℕ × Int))).1.participants) = true :=
  race_loop_exit_condition.1 (fun _ => 0) 1 ⟨[], none⟩ 0
    (⟨[], some []⟩, [], []) (by
      simp [runRaceLoop, raceTick, advancePass, sortByDistanceDesc, crashPass,
        finishPass, allFinished])

theorem c7_tick_eq (p : Int) (lo : Option (List ℕ)) (k : ℕ)
    (hlo : lo = none ∨ lo = some [1]) :
    raceTick (fun _ => 0) ⟨[⟨1, "A", 1, 0, 200, 0, false, p⟩], lo⟩ k
      = ⟨⟨[⟨1, "A", 1, 0, 200, 0, false, applyPercentBigInt p CRASH_PENALTY_PCT false⟩],
            some [1]⟩, k+3, [RaceEvent.crash 1],
          [(1, applyPercentBigInt p CRASH_PENALTY_PCT false)]⟩ := by
  have hspeed : racerSpeedTick ⟨1, 0, 200⟩ 0 0 = 1 := by
    norm_num [racerSpeedTick, BASE_DRIFT]
  have hadv : (advancePass (fun _ => (0 : ℚ)) [⟨1, "A", 1, 0, 200, 0, false, p⟩] k).1
      = [⟨1, "A", 1, 0, 200, 1, false, p⟩] := by
    simp only [advancePass, Bool.false_eq_true, if_false, hspeed]
    norm_num
  have hadv2 : (advancePass (fun _ => (0 : ℚ)) [⟨1, "A", 1, 0, 200, 0, false, p⟩] k).2
      = k + 2 := by
    simp [advancePass]
  have hcrash : crashProb 0 200 = 1/500 := by
    norm_num [crashProb]
  have hcp : (crashPass (fun _ => (0 : ℚ)) [⟨1, "A", 1, 0, 200, 1, false, p⟩] (k+2))
      = ([⟨1, "A", 1, 0, 200, 0, false, applyPercentBigInt p CRASH_PENALTY_PCT false⟩],
          k+3, [RaceEvent.crash 1],
          [(1, applyPercentBigInt p CRASH_PENALTY_PCT false)]) := by
    simp only [crashPass, Bool.false_eq_true, if_false, hcrash]
    norm_num
  have hfp : finishPass
      [⟨1, "A", 1, 0, 200, 0, false, applyPercentBigInt p CRASH_PENALTY_PCT false⟩]
      = ([⟨1, "A", 1, 0, 200, 0, false, applyPercentBigInt p CRASH_PENALTY_PCT false⟩],
          [], []) := by
    simp only [finishPass]
    norm_num [RACE_DISTANCE]
  rcases hlo with rfl | rfl
  · simp only [raceTick, hadv, hadv2, sortByDistanceDesc, List.mergeSort_singleton,
      List.map_cons, List.map_nil, hcp, hfp, List.append_nil]
  · simp only [raceTick, hadv, hadv2, sortByDistanceDesc, List.mergeSort_singleton,
      List.map_cons, List.map_nil, hcp, hfp]
    have hov : overtakePass [1] [1] 0 [⟨1, "A", 1, 0, 200, 1, false, p⟩]
        = ([⟨1, "A", 1, 0, 200, 1, false, p⟩], [], []) := by
      simp [overtakePass, jsIndexOf]
    rw [hov, hcp, hfp]
    simp

theorem c7_loop_none (fuel : ℕ) :
    ∀ (p : Int) (lo : Option (List ℕ)) (k : ℕ), lo = none ∨ lo = some [1] →
      runRaceLoop (fun _ => 0) fuel ⟨[⟨1, "A", 1, 0, 200, 0, false, p⟩], lo⟩ k = none := by
  induction fuel with
  | zero => intro p lo k hlo; rfl
  | succ fuel ih =>
    intro p lo k hlo
    simp only [runRaceLoop, c7_tick_eq p lo k hlo]
    rw [if_neg (by simp [allFinished])]
    rw [ih (applyPercentBigInt p CRASH_PENALTY_PCT false) (some [1]) (k+3) (Or.inr rfl)]

/-- C7 — counterexample.  A single racer with `speedStat = 1 > 0`,
`aggression = 0`, `consistency = 200` never finishes on the all-zero draw
stream: every tick it advances by exactly 1 and then crashes (the crash draw
0 is below the floor probability 0.002), losing `2 * speedStat`, so its
distance is clamped back to 0 forever and the loop never exits — refuting
"terminates in a finite number of ticks on every sequence of random draws"
for rosters with every `speedStat > 0`. -/
theorem race_loop_nontermination_counterexample :
    ¬ ∃ (fuel : ℕ) (res : RaceState × List RaceEvent × List (ℕ × Int)),
      runRaceLoop (fun _ => 0) fuel (initState [⟨1, "A", 1, 0, 200, 100⟩]) 0 = some res := by
  rintro ⟨fuel, res, h⟩
  have hinit : initState [⟨1, "A", 1, 0, 200, 100⟩]
      = ⟨[⟨1, "A", 1, 0, 200, 0, false, 100⟩], none⟩ := rfl
  rw [hinit, c7_loop_none fuel 100 none 0 (Or.inl rfl)] at h
  exact Option.noConfusion h

/-! ### Helper lemmas: the overtake pass only touches prices -/

theorem participantOf_overtakePass_placing (prev : List ℕ) :
    ∀ (cur : List ℕ) (i : ℕ) (st : List Participant) (x : ℕ) (r : Participant),
      participantOf st x = some r →
      ∃ s, participantOf (overtakePass prev cur i st).1 x = some s
        ∧ s.id = r.id ∧ s.name = r.name ∧ s.speedStat = r.speedStat
        ∧ s.aggression = r.aggression ∧ s.consistency = r.consistency
        ∧ s.distance = r.distance ∧ s.finished = r.finished
  | [], _, _, _, r, h => ⟨r, h, rfl, rfl, rfl, rfl, rfl, rfl, rfl⟩
  | id :: rest, i, st, x, r, h => by
    by_cases hp : jsIndexOf prev id > (i : Int)
    · cases hfind : st.find? (fun y => y.id = id) with
      | some racer =>
        simp only [overtakePass, if_pos hp, hfind]
        by_cases hx : x = id
        · subst hx
          have hself := participantOf_updateFirst_self
            (fun s => { s with currentPriceWei :=
              applyPercentBigInt racer.currentPriceWei OVERTAKE_BONUS_PCT true })
            x (fun s => rfl) st
          rw [h] at hself
          obtain ⟨s, hs, h1, h2, h3, h4, h5, h6, h7⟩ :=
            participantOf_overtakePass_placing prev rest (i+1) _ x _ hself
          exact ⟨s, hs, h1, h2, h3, h4, h5, h6, h7⟩
        · have hne := participantOf_updateFirst_ne
            (fun s => { s with currentPriceWei :=
              applyPercentBigInt racer.currentPriceWei OVERTAKE_BONUS_PCT true })
            x id (fun s => rfl) hx st
          exact participantOf_overtakePass_placing prev rest (i+1) _ x r
            (hne.trans h)
      | none =>
        simp only [overtakePass, if_pos hp, hfind]
        exact participantOf_overtakePass_placing prev rest (i+1) st x r h
    · simp only [overtakePass, if_neg hp]
      exact participantOf_overtakePass_placing prev rest (i+1) st x r h

/-- C8: `finished` is one-way.  For a participant that is already finished
at the start of a tick, the tick keeps it present with `finished = true` and
an unchanged distance (it is skipped by the distance-advance and crash
passes), and its id still appears in the rank order recorded by the tick's
sort. -/
theorem finished_is_one_way :
    ∀ (draws : ℕ → ℚ) (st : RaceState) (k : ℕ) (x : ℕ) (r : Participant),
      (st.participants.map (·.id)).Nodup →
      participantOf st.participants x = some r →
      r.finished = true →
      ∃ s, participantOf (raceTick draws st k).state.participants x = some s
        ∧ s.finished = true ∧ s.distance = r.distance
        ∧ x ∈ ((raceTick draws st k).state.lastOrder.getD []) := by
  intro draws st k x r hnd hfind hfin
  have hadv : participantOf (advancePass draws st.participants k).1 x = some r :=
    participantOf_advancePass_finished draws x r hfin st.participants k hfind
  have hndadv : (((advancePass draws st.participants k).1).map (·.id)).Nodup := by
    rw [advancePass_map_id]; exact hnd
  have hsorted : participantOf
      (sortByDistanceDesc (advancePass draws st.participants k).1) x = some r := by
    rw [← participantOf_of_perm x hndadv (sortByDistanceDesc_perm _).symm]
    exact hadv
  have hmemsort : x ∈ ((sortByDistanceDesc (advancePass draws st.participants k).1).map (·.id)) := by
    rw [List.mem_map]
    exact ⟨r, List.mem_of_find?_eq_some hsorted, by
      simpa using List.find?_some hsorted⟩
  have hmid : ∃ s, participantOf (midTickState draws st k) x = some s
      ∧ s.distance = r.distance ∧ s.finished = true := by
    obtain ⟨parts, lo⟩ := st
    cases lo with
    | none => exact ⟨r, hsorted, rfl, hfin⟩
    | some prev =>
      obtain ⟨s, hs, -, -, -, -, -, h6, h7⟩ :=
        participantOf_overtakePass_placing prev _ 0 _ x r hsorted
      exact ⟨s, hs, h6, h7.trans hfin⟩
  obtain ⟨s, hs, hsd, hsf⟩ := hmid
  have hcrash : participantOf
      (crashPass draws (midTickState draws st k)
        ((advancePass draws st.participants k).2)).1 x = some s :=
    participantOf_crashPass_finished draws x s hsf _ _ hs
  have hfinish : participantOf (raceTick draws st k).state.participants x = some s := by
    rw [raceTick_participants_eq, finishPass_eq_map,
      participantOf_map_id_preserving _ finishOne_id x, hcrash]
    simp only [Option.map_some']
    rw [if_neg]
    rintro ⟨h1, -⟩
    rw [hsf] at h1
    exact Bool.noConfusion h1
  refine ⟨s, hfinish, hsf, hsd, ?_⟩
  rw [raceTick_lastOrder]
  simpa using hmemsort

/-- C8 — witness: a finished participant stays finished with its distance
kept through a concrete tick. -/
theorem finished_is_one_way_witness :
    ∃ s, participantOf (raceTick (fun _ => 0)
        ⟨[⟨1, "A", 1, 0, 200, 4, true, 50⟩], some [1]⟩ 0).state.participants 1 = some s
      ∧ s.finished = true ∧ s.distance = (⟨1, "A", 1, 0, 200, 4, true, 50⟩ : Participant).distance
      ∧ 1 ∈ ((raceTick (fun _ => 0)
          ⟨[⟨1, "A", 1, 0, 200, 4, true, 50⟩], some [1]⟩ 0).state.lastOrder.getD []) :=
  finished_is_one_way (fun _ => 0) ⟨[⟨1, "A", 1, 0, 200, 4, true, 50⟩], some [1]⟩ 0 1
    ⟨1, "A", 1, 0, 200, 4, true, 50⟩ (by decide) (by decide) rfl

/-- C10: each of the three event price maps (+10% overtake, -20% crash,
+5% finish) sends a non-negative price to 0 exactly when the price is 0;
0 is a fixed point of all three, and a strictly positive price stays
strictly positive under each of them. -/
theorem price_maps_zero_iff :
    (∀ p : Int, 0 ≤ p →
      ((applyPercentBigInt p OVERTAKE_BONUS_PCT true = 0 ↔ p = 0) ∧
       (applyPercentBigInt p CRASH_PENALTY_PCT false = 0 ↔ p = 0) ∧
       (applyPercentBigInt p WINNER_BONUS_PCT true = 0 ↔ p = 0))) ∧
    (applyPercentBigInt 0 OVERTAKE_BONUS_PCT true = 0 ∧
     applyPercentBigInt 0 CRASH_PENALTY_PCT false = 0 ∧
     applyPercentBigInt 0 WINNER_BONUS_PCT true = 0) ∧
    (∀ p : Int, 0 < p →
      0 < applyPercentBigInt p OVERTAKE_BONUS_PCT true ∧
      0 < applyPercentBigInt p CRASH_PENALTY_PCT false ∧
      0 < applyPercentBigInt p WINNER_BONUS_PCT true) := by
  have key : ∀ p : Int, 0 ≤ p →
      (applyPercentBigInt p OVERTAKE_BONUS_PCT true = p + p * 10 / 100) ∧
      (applyPercentBigInt p CRASH_PENALTY_PCT false = p - p * 20 / 100) ∧
      (applyPercentBigInt p WINNER_BONUS_PCT true = p + p * 5 / 100) := by
    intro p hp
    refine ⟨?_, ?_, ?_⟩
    · simpa [OVERTAKE_BONUS_PCT] using applyPercent_increase_eq p 10 hp (by norm_num)
    · simpa [CRASH_PENALTY_PCT] using applyPercent_decrease_eq p 20 hp (by norm_num)
    · simpa [WINNER_BONUS_PCT] using applyPercent_increase_eq p 5 hp (by norm_num)
  refine ⟨?_, by decide, ?_⟩
  · intro p hp
    obtain ⟨e10, e20, e5⟩ := key p hp
    refine ⟨?_, ?_, ?_⟩
    · rw [e10]; omega
    · rw [e20]; omega
    · rw [e5]; omega
  · intro p hp
    obtain ⟨e10, e20, e5⟩ := key p hp.le
    refine ⟨?_, ?_, ?_⟩
    · rw [e10]; omega
    · rw [e20]; omega
    · rw [e5]; omega

/-- C10 — witness at the concrete non-negative price 7. -/
theorem price_maps_zero_iff_witness :
    (applyPercentBigInt 7 CRASH_PENALTY_PCT false = 0 ↔ (7 : Int) = 0) ∧
    0 < applyPercentBigInt 7 OVERTAKE_BONUS_PCT true :=
  ⟨((price_maps_zero_iff.1 7 (by norm_num)).2.1),
   (price_maps_zero_iff.2.2 7 (by norm_num)).1⟩

end TurboRace
